import Mathlib

/-!
Verification of the flapjack feature-flag evaluation core.

This file gives a shallow embedding, in Lean 4, of the evaluation engine of
the flapjack repository (`src/model.ts`: `evaluateFlagForUser`,
`isActiveForUser`, `areActiveForUser`) and of its caching layer
(`src/cache.ts`: `InMemoryCache`, `FeatureFlagCache`, `generateCacheKey`),
and proves the specified properties about them.

Conventions of the embedding:
- JavaScript `undefined`/absent optional fields become `Option`; the reader
  `mapRow` in `model.ts` collapses SQL `NULL` to `undefined` before
  evaluation ever sees a flag, so `null` and `undefined` are both `none`.
- JavaScript numbers used for `percent` (a `numeric(3,1)` column, range
  [0, 99.9] with one decimal digit) are modelled as rationals `ℚ`; the
  32-bit hash values are modelled as `Nat` reduced `% 2^32`.
- `Date` values are modelled as integer timestamps (milliseconds), matching
  `Date.now()` / numeric `Date` comparison.
- The PostgreSQL-backed store is an external collaborator; it is modelled
  abstractly as the three pure query functions the evaluation service uses
  (`getByName`, `getManyByName`, `list`).
- Where a claim is about *which calls happen* (the expiration event handler,
  the store fetches, the cached facade's delegation to the model), the
  embedded function additionally returns a trace of those calls, and the
  plain function is its first projection.
-/

/-! ### MurmurHash3 (x86, 32-bit), seed 0

Modelled from the spec: the hash used by `hashUserId` (`src/model.ts`) and
`generateCacheKey` (`src/cache.ts`) is provided by the third-party
`imurmurhash` package, whose source is not part of this repository; the spec
(§4.1 Deterministic Hasher) fixes it as MurmurHash3 (x86, 32-bit) with seed 0
over the UTF-8 bytes of the input string. -/

/-- 2^32, the modulus for 32-bit unsigned arithmetic. -/
def UINT32 : Nat := 4294967296

/-- Rotate a 32-bit value left by `r` bits (for `x < 2^32`, `0 < r < 32`). -/
def rotl32 (x r : Nat) : Nat :=
  ((x <<< r) % UINT32) ||| (x >>> (32 - r))

/-- MurmurHash3 finalization mix. -/
def fmix32 (h0 : Nat) : Nat :=
  let h1 := h0 ^^^ (h0 >>> 16)
  let h2 := (h1 * 2246822507) % UINT32
  let h3 := h2 ^^^ (h2 >>> 13)
  let h4 := (h3 * 3266489909) % UINT32
  h4 ^^^ (h4 >>> 16)

/-- Mix of one 32-bit key block. -/
def murmurK (k0 : Nat) : Nat :=
  let k1 := (k0 * 3432918353) % UINT32
  let k2 := rotl32 k1 15
  (k2 * 461845907) % UINT32

/-- Read a little-endian integer from a byte list. -/
def leBytes : List Nat → Nat
  | [] => 0
  | b :: rest => b + 256 * leBytes rest

/-- MurmurHash3 body: consume the byte stream in 4-byte little-endian
blocks, then fold the 1–3 remaining tail bytes in without the
block-mixing step. -/
def murmurBody (h : Nat) : List Nat → Nat
  | b0 :: b1 :: b2 :: b3 :: rest =>
    let h1 := h ^^^ murmurK (b0 + b1 * 256 + b2 * 65536 + b3 * 16777216)
    let h2 := rotl32 h1 13
    murmurBody ((h2 * 5 + 3864292196) % UINT32) rest
  | [] => h
  | tail => h ^^^ murmurK (leBytes tail)

/-- UTF-8 encoding of one character, as a list of byte values. -/
def utf8Bytes (c : Char) : List Nat :=
  let n := c.toNat
  if n < 128 then [n]
  else if n < 2048 then
    [192 ||| (n >>> 6), 128 ||| (n &&& 63)]
  else if n < 65536 then
    [224 ||| (n >>> 12), 128 ||| ((n >>> 6) &&& 63), 128 ||| (n &&& 63)]
  else
    [240 ||| (n >>> 18), 128 ||| ((n >>> 12) &&& 63),
     128 ||| ((n >>> 6) &&& 63), 128 ||| (n &&& 63)]

/-- UTF-8 byte stream of a string. -/
def strBytes (s : String) : List Nat :=
  (s.data.map utf8Bytes).flatten

/-- MurmurHash3 (x86, 32-bit) of a string, seed 0. -/
def murmur3 (s : String) : Nat :=
  let bytes := strBytes s
  fmix32 (murmurBody 0 bytes ^^^ (bytes.length % UINT32))

/-! ### Data model (`src/types.ts`)

Fields `id`, `note`, `created`, `modified` exist on `FeatureFlag` but play no
part in evaluation or caching (the spec marks them irrelevant); they are kept
here for fidelity. `everyone?: boolean | null` is one `Option Bool`: the store
reader `mapRow` (`model.ts`) turns `null` into `undefined`, and the evaluator
treats the two identically (`flag.everyone !== undefined && !== null`). -/

structure FeatureFlag where
  id : Nat := 0
  name : String
  everyone : Option Bool := none
  percent : Option ℚ := none
  roles : Option (List String) := none
  groups : Option (List String) := none
  users : Option (List String) := none
  note : Option String := none
  created : Int := 0
  modified : Int := 0
  expires : Option Int := none
deriving Repr, DecidableEq

/-- The caller-supplied evaluation context (`user`, `roles`, `groups`
parameters of `evaluateFlagForUser` / `isActiveForUser`). -/
structure EvalContext where
  user : Option String := none
  roles : Option (List String) := none
  groups : Option (List String) := none
deriving Repr, DecidableEq

/-! ### Rule evaluator (`src/model.ts`) -/

/-- JavaScript truthiness of an optional string (`if (user && ...)`):
`undefined` and the empty string are falsy. -/
def truthyStr : Option String → Bool
  | none => false
  | some s => !(s == "")

/-- `isActiveForGroups` (`model.ts`): both parameters default to `[]`;
returns false when the flag's group list is empty, else true iff some flag
group is among the user's groups. -/
def isActiveForGroups (userGroups flagGroups : List String) : Bool :=
  if flagGroups.length == 0 then false
  else flagGroups.any (fun g => userGroups.contains g)

/-- `flag.users && flag.users.includes(user)` (with the user known
defined): true iff both lists exist and the user id is in the allow
list. -/
def userMatch (flagUsers : Option (List String)) (user : Option String) : Bool :=
  match flagUsers, user with
  | some us, some u => us.contains u
  | _, _ => false

/-- The role-check loop of `evaluateFlagForUser`: `flag.roles && roles`
must both be defined, and some context role is in the flag's roles. -/
def roleMatch (flagRoles ctxRoles : Option (List String)) : Bool :=
  match flagRoles, ctxRoles with
  | some fr, some cr => cr.any (fun r => fr.contains r)
  | _, _ => false

/-- `flag.percent && flag.percent > 0`: defined, truthy (≠ 0) and positive;
over `ℚ` this is just "defined and positive". -/
def percentPositive : Option ℚ → Bool
  | some p => decide (0 < p)
  | none => false

/-- `evaluateFlagForUser` (`model.ts`): the rule evaluator. Mirrors the
source's early-return chain: everyone override, user allow-list, group
match, role match, percentage rollout, default false. -/
def evaluateFlagForUser (flag : FeatureFlag) (ctx : EvalContext) : Bool :=
  -- Everyone Override: If everyone is true or false, return that value immediately
  match flag.everyone with
  | some b => b
  | none =>
    -- User-Specific Check: If user ID is in the users array, return true
    if truthyStr ctx.user && userMatch flag.users ctx.user then true
    -- Group Check: If any of the user's groups match any group in the groups array
    else if ctx.groups.isSome &&
        isActiveForGroups (ctx.groups.getD []) (flag.groups.getD []) then true
    -- Role Check: If any of the user's roles match any role in the roles array
    else if roleMatch flag.roles ctx.roles then true
    -- Percentage Check: If percentage rollout applies to this user
    else if truthyStr ctx.user && percentPositive flag.percent then
      decide (((murmur3 (ctx.user.getD "") % 100 : Nat) : ℚ) < flag.percent.getD 0)
    -- Default: Return false
    else false

/-- `hashUserId` (`model.ts`): `MurmurHash3(userId).result()`. -/
def hashUserId (userId : String) : Nat :=
  murmur3 userId

/-! ### Association lists for JavaScript `Map` / plain-object records

`new Map(entries)` performs repeated `set`; `set` overwrites the value in
place for an existing key and appends otherwise; plain-object records
(`result[name] = ...`) behave the same for string keys. -/

/-- JS `Map.set` / record assignment: overwrite in place, else append. -/
def assocSet {β : Type} : List (String × β) → String → β → List (String × β)
  | [], k, v => [(k, v)]
  | p :: r, k, v => if p.1 == k then (k, v) :: r else p :: assocSet r k v

/-- JS `Map.get` / record access: first entry with the key. -/
def assocGet {β : Type} : List (String × β) → String → Option β
  | [], _ => none
  | p :: r, k => if p.1 == k then some p.2 else assocGet r k

/-- JS `Map.delete`: remove the entry with the key. -/
def assocDelete {β : Type} : List (String × β) → String → List (String × β)
  | [], _ => []
  | p :: r, k => if p.1 == k then r else p :: assocDelete r k

/-! ### Evaluation service (`src/model.ts`) -/

/-- The PostgreSQL flag store, abstracted to the three pure queries the
evaluation service issues (spec §6, external collaborator). -/
structure FlagStore where
  getByName : String → Option FeatureFlag
  getManyByName : List String → List FeatureFlag
  list : List FeatureFlag

/-- `FeatureFlagEventHandlers` (`src/types.ts`): the optional expiration
handler, returning `boolean | undefined`. Side effects are not modelled;
invocations are recorded in traces instead. -/
structure FeatureFlagEventHandlers where
  onExpired : Option (FeatureFlag → Option Bool)

/-- `FeatureFlagModel`: the store plus the optional event handlers given to
the constructor. -/
structure FeatureFlagModel where
  store : FlagStore
  eventHandlers : Option FeatureFlagEventHandlers := none

/-- `this.eventHandlers?.onExpired`: optional chaining through both levels. -/
def onExpiredHandler (m : FeatureFlagModel) : Option (FeatureFlag → Option Bool) :=
  match m.eventHandlers with
  | none => none
  | some h => h.onExpired

/-- `flag.expires && flag.expires <= new Date()`: a `Date` object is always
truthy, so this is "expires present and ≤ now". -/
def expiredCond (flag : FeatureFlag) (now : Int) : Bool :=
  match flag.expires with
  | some e => decide (e ≤ now)
  | none => false

/-- The expiration-gate-then-rule-evaluator block that `isActiveForUser`
(model.ts:1099–1112) and `areActiveForUser` (model.ts:1197–1214) each
inline: if a handler is configured and the flag has expired, invoke the
handler; a `true`/`false` result is final, `undefined` falls through to
`evaluateFlagForUser`. Returns the result together with the list of flags
the expiration handler was invoked on. -/
def evalFlagWithExpiration (m : FeatureFlagModel) (flag : FeatureFlag)
    (ctx : EvalContext) (now : Int) : Bool × List FeatureFlag :=
  match onExpiredHandler m with
  | some handler =>
    if expiredCond flag now then
      match handler flag with
      | some b => (b, [flag])
      | none => (evaluateFlagForUser flag ctx, [flag])
    else (evaluateFlagForUser flag ctx, [])
  | none => (evaluateFlagForUser flag ctx, [])

/-- `isActiveForUser` (`model.ts`), with a trace of expiration-handler
invocations: fetch by name; absent flag is `false`; else the
expiration-then-rules block. -/
def FeatureFlagModel.isActiveForUserT (m : FeatureFlagModel) (name : String) (ctx : EvalContext)
    (now : Int) : Bool × List FeatureFlag :=
  match m.store.getByName name with
  | none => (false, [])
  | some flag => evalFlagWithExpiration m flag ctx now

/-- `isActiveForUser`: the boolean result. -/
def FeatureFlagModel.isActiveForUser (m : FeatureFlagModel) (name : String) (ctx : EvalContext)
    (now : Int) : Bool :=
  (m.isActiveForUserT name ctx now).1

/-- A store query issued by the evaluation service, for fetch traces. -/
inductive StoreOp where
  | fetchByName (name : String)
  | fetchManyByName (names : List String)
  | fetchAll
deriving Repr, DecidableEq

/-- `new Map(flags.map((flag) => [flag.name, flag]))`. -/
def flagMapOf (flags : List FeatureFlag) : List (String × FeatureFlag) :=
  flags.foldl (fun acc flag => assocSet acc flag.name flag) []

/-- `areActiveForUser` (`model.ts`), with a trace of store queries: with
`names` absent, list every flag and take their names as the requested
names; with `names` given, one batch fetch. Then one record entry per
requested name, `false` when the batch result lacks the name, else the
expiration-then-rules block. -/
def FeatureFlagModel.areActiveForUserT (m : FeatureFlagModel) (names : Option (List String))
    (ctx : EvalContext) (now : Int) : List (String × Bool) × List StoreOp :=
  let fetched : List FeatureFlag × List String × List StoreOp :=
    match names with
    | none => (m.store.list, m.store.list.map (fun f => f.name), [StoreOp.fetchAll])
    | some ns => (m.store.getManyByName ns, ns, [StoreOp.fetchManyByName ns])
  let flagMap := flagMapOf fetched.1
  let result := fetched.2.1.foldl (fun acc name =>
    match assocGet flagMap name with
    | none => assocSet acc name false
    | some flag => assocSet acc name (evalFlagWithExpiration m flag ctx now).1) []
  (result, fetched.2.2)

/-- `areActiveForUser`: the name → boolean record. -/
def FeatureFlagModel.areActiveForUser (m : FeatureFlagModel) (names : Option (List String))
    (ctx : EvalContext) (now : Int) : List (String × Bool) :=
  (m.areActiveForUserT names ctx now).1

/-! ### Cache key derivation (`src/cache.ts`) -/

/-- JS `Array.prototype.sort()` on strings: lexicographic by code unit.
Stable merge sort under the string order. -/
def sortStrings (l : List String) : List String :=
  l.mergeSort (fun a b => a ≤ b)

/-- JS `Array.prototype.join(sep)`. -/
def joinSep (sep : String) : List String → String
  | [] => ""
  | [s] => s
  | s :: rest => s ++ sep ++ joinSep sep rest

/-- The canonical pre-hash string of `generateCacheKey` (`cache.ts`):
`[name, user || "", (roles || []).sort().join(","),
(groups || []).sort().join(",")].join("|")`. Note `user || ""` sends an
absent or empty user to `""`. -/
def generateCacheKeyString (name : String) (user : Option String)
    (roles groups : Option (List String)) : String :=
  joinSep "|"
    [name, user.getD "",
     joinSep "," (sortStrings (roles.getD [])),
     joinSep "," (sortStrings (groups.getD []))]

/-- `generateCacheKey` (`cache.ts`): `"flag:" + MurmurHash3(keyString).result()`. -/
def generateCacheKey (name : String) (user : Option String)
    (roles groups : Option (List String)) : String :=
  "flag:" ++ toString (murmur3 (generateCacheKeyString name user roles groups))

/-! ### TTL cache (`src/cache.ts`) -/

/-- A cache entry: the stored value and the optional absolute expiry (ms). -/
structure CacheEntry (α : Type) where
  value : α
  expiresAt : Option Int
deriving Repr, DecidableEq

/-- `InMemoryCache`: a `Map` from keys to entries. The value type is a
parameter (the source stores `any`). -/
structure InMemoryCache (α : Type) where
  cache : List (String × CacheEntry α) := []
deriving Repr, DecidableEq

/-- `InMemoryCache.get`: absent key → `undefined`; expired entry
(`expiresAt` defined and `now >= expiresAt`) → delete it and return
`undefined`; else the value. Returns the possibly mutated cache. -/
def InMemoryCache.get {α : Type} (c : InMemoryCache α) (key : String)
    (now : Int) : Option α × InMemoryCache α :=
  match assocGet c.cache key with
  | none => (none, c)
  | some entry =>
    match entry.expiresAt with
    | some exp =>
      if exp ≤ now then (none, ⟨assocDelete c.cache key⟩)
      else (some entry.value, c)
    | none => (some entry.value, c)

/-- `InMemoryCache.set`: expiry `Date.now() + ttl * 1000` when a ttl
(seconds) is given, none otherwise; overwrites any prior entry. -/
def InMemoryCache.set {α : Type} (c : InMemoryCache α) (key : String)
    (value : α) (ttl : Option Int) (now : Int) : InMemoryCache α :=
  ⟨assocSet c.cache key ⟨value, ttl.map (fun t => now + t * 1000)⟩⟩

/-- `InMemoryCache.delete`. -/
def InMemoryCache.delete {α : Type} (c : InMemoryCache α) (key : String) :
    InMemoryCache α :=
  ⟨assocDelete c.cache key⟩

/-- `InMemoryCache.clearExpired`: eagerly drop every entry with
`expiresAt` defined and `now >= expiresAt`. -/
def InMemoryCache.clearExpired {α : Type} (c : InMemoryCache α) (now : Int) :
    InMemoryCache α :=
  ⟨c.cache.filter (fun p =>
    match p.2.expiresAt with
    | some exp => decide (now < exp)
    | none => true)⟩

/-- `InMemoryCache.size`: entry count, expired entries included. -/
def InMemoryCache.size {α : Type} (c : InMemoryCache α) : Nat :=
  c.cache.length

/-- `InMemoryCache.clear`. -/
def InMemoryCache.clear {α : Type} (_ : InMemoryCache α) : InMemoryCache α :=
  ⟨[]⟩

/-! ### Cached evaluation facade (`src/cache.ts`) -/

/-- `DEFAULT_TTL = 60 * 5` seconds. -/
def DEFAULT_TTL : Int := 60 * 5

/-- `FeatureFlagCache`: model + cache + ttl (seconds). The pluggable
`Cache` interface is instantiated with the repository's in-memory
implementation storing booleans. -/
structure FeatureFlagCache where
  model : FeatureFlagModel
  cache : InMemoryCache Bool
  ttl : Int

/-- The `FeatureFlagCache` constructor: `ttl` defaults to `DEFAULT_TTL`. -/
def FeatureFlagCache.make (model : FeatureFlagModel) (cache : InMemoryCache Bool)
    (ttl : Option Int) : FeatureFlagCache :=
  ⟨model, cache, ttl.getD DEFAULT_TTL⟩

/-- `FeatureFlagCache.isActiveForUser`: derive the key from
`(name, user, roles, groups)`; a cached value (`!== undefined`) is returned
as is; on miss, delegate to `FeatureFlagModel.isActiveForUser`, store the
result with the facade's ttl, return it. The final `Nat` counts model
invocations. -/
def FeatureFlagCache.isActiveForUser (fc : FeatureFlagCache) (name : String)
    (ctx : EvalContext) (now : Int) : Bool × FeatureFlagCache × Nat :=
  let cacheKey := generateCacheKey name ctx.user ctx.roles ctx.groups
  let got := fc.cache.get cacheKey now
  match got.1 with
  | some cachedResult => (cachedResult, { fc with cache := got.2 }, 0)
  | none =>
    let result := fc.model.isActiveForUser name ctx now
    (result, { fc with cache := got.2.set cacheKey result (some fc.ttl) now }, 1)

/-! ### Derived forms and concrete instances used by the theorems -/

/-- The value `areActiveForUser` records for one requested name: `false`
when the batch result has no flag of that name, else the
expiration-then-rules result. -/
def areActiveValue (m : FeatureFlagModel) (flags : List FeatureFlag)
    (ctx : EvalContext) (now : Int) (n : String) : Bool :=
  match assocGet (flagMapOf flags) n with
  | none => false
  | some flag => (evalFlagWithExpiration m flag ctx now).1

/-- Character-level counterpart of `joinSep` (used to reason about the
canonical key string): join character lists with a separator character. -/
def joinChars (sep : Char) : List (List Char) → List Char
  | [] => []
  | [s] => s
  | s :: rest => s ++ sep :: joinChars sep rest

/-- A concrete flag forced on for everyone. -/
def demoFlag : FeatureFlag := { name := "f", everyone := some true }

/-- A concrete store holding exactly `demoFlag`. -/
def demoStore : FlagStore :=
  { getByName := fun n => if n == "f" then some demoFlag else none,
    getManyByName := fun ns => if ns.contains "f" then [demoFlag] else [],
    list := [demoFlag] }

/-- A model over `demoStore` with no event handlers. -/
def demoModel : FeatureFlagModel := { store := demoStore }

/-- A concrete expired flag whose rules would say `true`. -/
def gateFlag : FeatureFlag := { name := "e", everyone := some true, expires := some 100 }

/-- A model whose expiration handler always overrides to `false`. -/
def gateModel : FeatureFlagModel :=
  { store := { getByName := fun n => if n == "e" then some gateFlag else none,
               getManyByName := fun _ => [], list := [gateFlag] },
    eventHandlers := some { onExpired := some (fun _ => some false) } }

/-! ### Helper lemmas: association lists -/

theorem assocGet_assocSet {β : Type} (r : List (String × β)) (k n : String) (v : β) :
    assocGet (assocSet r k v) n = if k == n then some v else assocGet r n := by
  induction r with
  | nil => simp [assocSet, assocGet]
  | cons p r' ih =>
    by_cases hpk : p.1 = k
    · simp only [assocSet, hpk, beq_self_eq_true, if_true, assocGet]
      by_cases hkn : k = n
      · simp [hkn]
      · simp [hkn, assocGet, show (p.1 == n) = false by simp [hpk, hkn]]
    · simp only [assocSet, show (p.1 == k) = false by simp [hpk], if_false, assocGet]
      by_cases hpn : p.1 = n
      · have hkn : ¬ k = n := fun h => hpk (h ▸ hpn)
        simp [hpn, hkn]
      · simp [show (p.1 == n) = false by simp [hpn], ih]

theorem assocSet_of_not_mem {β : Type} (r : List (String × β)) (k : String) (v : β)
    (h : ∀ p ∈ r, p.1 ≠ k) : assocSet r k v = r ++ [(k, v)] := by
  induction r with
  | nil => simp [assocSet]
  | cons p r' ih =>
    have hp : p.1 ≠ k := h p (List.mem_cons_self p r')
    simp [assocSet, hp, ih (fun q hq => h q (List.mem_cons_of_mem p hq))]

theorem length_assocDelete {β : Type} (r : List (String × β)) (k : String) {e : β}
    (h : assocGet r k = some e) : (assocDelete r k).length + 1 = r.length := by
  induction r with
  | nil => simp [assocGet] at h
  | cons p r' ih =>
    by_cases hpk : p.1 = k
    · simp [assocDelete, hpk]
    · have hb : (p.1 == k) = false := by simp [hpk]
      simp only [assocGet, hb, if_false] at h
      simp [assocDelete, hb, ih h]

/-- Lookup after a fold that upserts a value determined by the key alone:
keys written get their value, others keep the initial record's value. -/
theorem assocGet_foldl_assocSet (value : String → Bool) (ns : List String)
    (r : List (String × Bool)) (n : String) :
    assocGet (ns.foldl (fun acc x => assocSet acc x (value x)) r) n =
      if n ∈ ns then some (value n) else assocGet r n := by
  induction ns generalizing r with
  | nil => simp
  | cons x xs ih =>
    simp only [List.foldl_cons, ih, assocGet_assocSet]
    by_cases hxs : n ∈ xs
    · simp [hxs]
    · by_cases hxn : x = n
      · simp [hxs, hxn]
      · have hnx : ¬ n = x := fun h => hxn (Eq.symm h)
        simp [hxs, hnx, show (x == n) = false by simp [hxn]]

/-- A fold of upserts over fresh, pairwise-distinct keys appends one entry
per key, in request order. -/
theorem foldl_assocSet_of_nodup (value : String → Bool) (ns : List String)
    (r : List (String × Bool)) (hnd : ns.Nodup) (hdisj : ∀ x ∈ ns, ∀ p ∈ r, p.1 ≠ x) :
    ns.foldl (fun acc x => assocSet acc x (value x)) r
      = r ++ ns.map (fun n => (n, value n)) := by
  induction ns generalizing r with
  | nil => simp
  | cons x xs ih =>
    have hx : ∀ p ∈ r, p.1 ≠ x := hdisj x (List.mem_cons_self x xs)
    simp only [List.foldl_cons, assocSet_of_not_mem r x (value x) hx]
    rw [ih (r ++ [(x, value x)]) (List.Nodup.of_cons hnd)]
    · simp
    · intro y hy p hp
      rcases List.mem_append.mp hp with hp | hp
      · exact hdisj y (List.mem_cons_of_mem x hy) p hp
      · simp only [List.mem_singleton] at hp
        subst hp
        intro h
        have h2 : x = y := h
        exact (List.nodup_cons.mp hnd).1 (by rw [h2]; exact hy)

/-! ### Helper lemmas: the shape of `areActiveForUser` -/

theorem areActiveForUserT_some (m : FeatureFlagModel) (ns : List String)
    (ctx : EvalContext) (now : Int) :
    m.areActiveForUserT (some ns) ctx now =
      (ns.foldl (fun acc name =>
        match assocGet (flagMapOf (m.store.getManyByName ns)) name with
        | none => assocSet acc name false
        | some flag => assocSet acc name (evalFlagWithExpiration m flag ctx now).1) [],
       [StoreOp.fetchManyByName ns]) := rfl

theorem areActiveForUserT_none (m : FeatureFlagModel)
    (ctx : EvalContext) (now : Int) :
    m.areActiveForUserT none ctx now =
      ((m.store.list.map (fun f => f.name)).foldl (fun acc name =>
        match assocGet (flagMapOf m.store.list) name with
        | none => assocSet acc name false
        | some flag => assocSet acc name (evalFlagWithExpiration m flag ctx now).1) [],
       [StoreOp.fetchAll]) := rfl

theorem areActive_step_eq (m : FeatureFlagModel) (flags : List FeatureFlag)
    (ctx : EvalContext) (now : Int) :
    (fun (acc : List (String × Bool)) (name : String) =>
      match assocGet (flagMapOf flags) name with
      | none => assocSet acc name false
      | some flag => assocSet acc name (evalFlagWithExpiration m flag ctx now).1)
    = fun acc name => assocSet acc name (areActiveValue m flags ctx now name) := by
  funext acc name
  unfold areActiveValue
  cases assocGet (flagMapOf flags) name <;> rfl

theorem areActiveForUser_some_eq (m : FeatureFlagModel) (ns : List String)
    (ctx : EvalContext) (now : Int) :
    m.areActiveForUser (some ns) ctx now =
      ns.foldl (fun acc name =>
        assocSet acc name (areActiveValue m (m.store.getManyByName ns) ctx now name)) [] := by
  unfold FeatureFlagModel.areActiveForUser
  rw [areActiveForUserT_some, ← areActive_step_eq]

theorem areActiveForUser_none_eq (m : FeatureFlagModel)
    (ctx : EvalContext) (now : Int) :
    m.areActiveForUser none ctx now =
      (m.store.list.map (fun f => f.name)).foldl (fun acc name =>
        assocSet acc name (areActiveValue m m.store.list ctx now name)) [] := by
  unfold FeatureFlagModel.areActiveForUser
  rw [areActiveForUserT_none, ← areActive_step_eq]

theorem assocGet_flagMapOf_aux (flags : List FeatureFlag) (n : String) :
    ∀ r, (∀ f ∈ flags, f.name ≠ n) →
      assocGet (flags.foldl (fun acc flag => assocSet acc flag.name flag) r) n
        = assocGet r n := by
  induction flags with
  | nil => intro r _; rfl
  | cons f fs ih =>
    intro r h
    simp only [List.foldl_cons]
    rw [ih _ (fun g hg => h g (List.mem_cons_of_mem f hg)), assocGet_assocSet]
    simp [h f (List.mem_cons_self f fs)]

theorem assocGet_flagMapOf_of_not_found (flags : List FeatureFlag) (n : String)
    (h : ∀ f ∈ flags, f.name ≠ n) : assocGet (flagMapOf flags) n = none := by
  unfold flagMapOf
  rw [assocGet_flagMapOf_aux flags n [] h]
  rfl

/-! ### Claim theorems -/

/-- C1: when `flag.everyone` is present (non-null), `evaluateFlagForUser`
returns exactly that boolean for every evaluation context, regardless of
the flag's other fields; hence `isActiveForUser` (when the flag resolves
and no expiration-gate override applies) and the flag's entry in
`areActiveForUser` also equal it. -/
theorem everyone_override_forces_result (flag : FeatureFlag) (ctx : EvalContext)
    (b : Bool) (h : flag.everyone = some b) :
    evaluateFlagForUser flag ctx = b ∧
    (∀ (m : FeatureFlagModel) (now : Int),
      (onExpiredHandler m = none ∨ expiredCond flag now = false ∨
        (∀ g, onExpiredHandler m = some g → g flag = none)) →
      (evalFlagWithExpiration m flag ctx now).1 = b) ∧
    (∀ (m : FeatureFlagModel) (name : String) (now : Int),
      m.store.getByName name = some flag →
      (onExpiredHandler m = none ∨ expiredCond flag now = false ∨
        (∀ g, onExpiredHandler m = some g → g flag = none)) →
      m.isActiveForUser name ctx now = b) ∧
    (∀ (m : FeatureFlagModel) (ns : List String) (now : Int),
      flag.name ∈ ns →
      assocGet (flagMapOf (m.store.getManyByName ns)) flag.name = some flag →
      (onExpiredHandler m = none ∨ expiredCond flag now = false ∨
        (∀ g, onExpiredHandler m = some g → g flag = none)) →
      assocGet (m.areActiveForUser (some ns) ctx now) flag.name = some b) := by
  have heval : evaluateFlagForUser flag ctx = b := by
    simp [evaluateFlagForUser, h]
  have hexp : ∀ (m : FeatureFlagModel) (now : Int),
      (onExpiredHandler m = none ∨ expiredCond flag now = false ∨
        (∀ g, onExpiredHandler m = some g → g flag = none)) →
      (evalFlagWithExpiration m flag ctx now).1 = b := by
    intro m now hno
    unfold evalFlagWithExpiration
    cases hoe : onExpiredHandler m with
    | none => simpa using heval
    | some g =>
      cases hec : expiredCond flag now with
      | false => simpa [hec] using heval
      | true =>
        rcases hno with hno | hno | hno
        · rw [hoe] at hno; cases hno
        · rw [hec] at hno; cases hno
        · have := hno g hoe
          simp [hec, this, heval]
  refine ⟨heval, hexp, ?_, ?_⟩
  · intro m name now hget hno
    unfold FeatureFlagModel.isActiveForUser FeatureFlagModel.isActiveForUserT
    rw [hget]
    exact hexp m now hno
  · intro m ns now hmem hget hno
    rw [areActiveForUser_some_eq,
      assocGet_foldl_assocSet (areActiveValue m (m.store.getManyByName ns) ctx now) ns []]
    simp only [hmem, if_true]
    unfold areActiveValue
    rw [hget]
    exact congrArg some (hexp m now hno)

/-- C1 witness: a flag with `everyone = true` evaluates to `true` through
every entry point on a concrete store with no gate configured. -/
theorem everyone_override_forces_result_witness :
    evaluateFlagForUser demoFlag {} = true ∧
    demoModel.isActiveForUser "f" {} 0 = true ∧
    assocGet (demoModel.areActiveForUser (some ["f"]) {} 0) "f" = some true := by
  have h := everyone_override_forces_result demoFlag {} true rfl
  exact ⟨h.1,
    h.2.2.1 demoModel "f" 0 (by decide) (Or.inl rfl),
    h.2.2.2 demoModel ["f"] 0 (by decide) (by decide) (Or.inl rfl)⟩

/-- C4: a name that does not resolve to a flag yields `false` from
`isActiveForUser`, and `areActiveForUser` maps such a requested name to
`false`; both are total functions, so "not found" is data, never an
exception. -/
theorem not_found_is_false (m : FeatureFlagModel) (name : String)
    (ctx : EvalContext) (now : Int) :
    (m.store.getByName name = none → m.isActiveForUser name ctx now = false) ∧
    (∀ ns, name ∈ ns → (∀ f ∈ m.store.getManyByName ns, f.name ≠ name) →
      assocGet (m.areActiveForUser (some ns) ctx now) name = some false) := by
  constructor
  · intro h
    unfold FeatureFlagModel.isActiveForUser FeatureFlagModel.isActiveForUserT
    rw [h]
  · intro ns hmem habsent
    rw [areActiveForUser_some_eq,
      assocGet_foldl_assocSet (areActiveValue m (m.store.getManyByName ns) ctx now) ns []]
    simp only [hmem, if_true]
    unfold areActiveValue
    rw [assocGet_flagMapOf_of_not_found _ _ habsent]

/-- C4 witness: looking up an unknown flag name on a concrete store. -/
theorem not_found_is_false_witness :
    demoModel.isActiveForUser "nope" {} 0 = false ∧
    assocGet (demoModel.areActiveForUser (some ["zzz"]) {} 0) "zzz" = some false := by
  have h := not_found_is_false demoModel "nope" {} 0
  have h2 := not_found_is_false demoModel "zzz" {} 0
  exact ⟨h.1 (by decide), h2.2 ["zzz"] (by decide) (by decide)⟩

/-! ### Helper lemmas: the expiration block -/

theorem evalFlagWithExpiration_no_handler (m : FeatureFlagModel) (flag : FeatureFlag)
    (ctx : EvalContext) (now : Int) (h : onExpiredHandler m = none) :
    evalFlagWithExpiration m flag ctx now = (evaluateFlagForUser flag ctx, []) := by
  unfold evalFlagWithExpiration
  simp [h]

theorem evalFlagWithExpiration_not_expired (m : FeatureFlagModel) (flag : FeatureFlag)
    (ctx : EvalContext) (now : Int) (h : expiredCond flag now = false) :
    evalFlagWithExpiration m flag ctx now = (evaluateFlagForUser flag ctx, []) := by
  unfold evalFlagWithExpiration
  cases hoe : onExpiredHandler m <;> simp [h]

theorem evalFlagWithExpiration_override (m : FeatureFlagModel) (flag : FeatureFlag)
    (ctx : EvalContext) (now : Int) (g : FeatureFlag → Option Bool) (b : Bool)
    (hg : onExpiredHandler m = some g) (he : expiredCond flag now = true)
    (hb : g flag = some b) :
    evalFlagWithExpiration m flag ctx now = (b, [flag]) := by
  unfold evalFlagWithExpiration
  simp [hg, he, hb]

theorem evalFlagWithExpiration_defer (m : FeatureFlagModel) (flag : FeatureFlag)
    (ctx : EvalContext) (now : Int) (g : FeatureFlag → Option Bool)
    (hg : onExpiredHandler m = some g) (hb : g flag = none) :
    (evalFlagWithExpiration m flag ctx now).1 = evaluateFlagForUser flag ctx := by
  unfold evalFlagWithExpiration
  cases he : expiredCond flag now <;> simp [hg, he, hb]

theorem evalFlagWithExpiration_trace (m : FeatureFlagModel) (flag : FeatureFlag)
    (ctx : EvalContext) (now : Int) :
    (evalFlagWithExpiration m flag ctx now).2 ≠ [] ↔
      ((onExpiredHandler m).isSome = true ∧ expiredCond flag now = true) := by
  unfold evalFlagWithExpiration
  cases hoe : onExpiredHandler m with
  | none => simp
  | some g =>
    cases hec : expiredCond flag now with
    | false => simp [hec]
    | true => cases hgf : g flag <;> simp [hec, hgf]

/-- C3: with the flag resolved, the expiration handler is invoked iff one
is configured and `flag.expires` is set and `≤ now`; a `true`/`false`
handler result is the final answer; an `undefined` result, an absent
handler, or an unexpired flag all leave the result to the rule
evaluator. -/
theorem expiration_gate_behavior (m : FeatureFlagModel) (name : String)
    (ctx : EvalContext) (now : Int) (flag : FeatureFlag)
    (hflag : m.store.getByName name = some flag) :
    ((m.isActiveForUserT name ctx now).2 ≠ [] ↔
      ((onExpiredHandler m).isSome = true ∧ ∃ e, flag.expires = some e ∧ e ≤ now)) ∧
    (∀ g b, onExpiredHandler m = some g → expiredCond flag now = true →
      g flag = some b → m.isActiveForUser name ctx now = b) ∧
    (∀ g, onExpiredHandler m = some g → g flag = none →
      m.isActiveForUser name ctx now = evaluateFlagForUser flag ctx) ∧
    (onExpiredHandler m = none →
      m.isActiveForUser name ctx now = evaluateFlagForUser flag ctx) ∧
    (expiredCond flag now = false →
      m.isActiveForUser name ctx now = evaluateFlagForUser flag ctx) := by
  have hcond : expiredCond flag now = true ↔ ∃ e, flag.expires = some e ∧ e ≤ now := by
    unfold expiredCond
    cases hex : flag.expires <;> simp
  have hval : m.isActiveForUser name ctx now = (evalFlagWithExpiration m flag ctx now).1 := by
    unfold FeatureFlagModel.isActiveForUser FeatureFlagModel.isActiveForUserT
    rw [hflag]
  have htr : (m.isActiveForUserT name ctx now).2 = (evalFlagWithExpiration m flag ctx now).2 := by
    unfold FeatureFlagModel.isActiveForUserT
    rw [hflag]
  refine ⟨?_, ?_, ?_, ?_, ?_⟩
  · rw [htr, evalFlagWithExpiration_trace m flag ctx now, hcond]
  · intro g b hg he hb
    rw [hval, evalFlagWithExpiration_override m flag ctx now g b hg he hb]
  · intro g hg hb
    rw [hval, evalFlagWithExpiration_defer m flag ctx now g hg hb]
  · intro h
    rw [hval, evalFlagWithExpiration_no_handler m flag ctx now h]
  · intro h
    rw [hval, evalFlagWithExpiration_not_expired m flag ctx now h]

/-- C3 witness: an expired flag whose rules say `true` but whose handler
overrides to `false`; at a pre-expiry time the handler is not invoked and
the rules decide. -/
theorem expiration_gate_behavior_witness :
    gateModel.isActiveForUser "e" {} 200 = false ∧
    (gateModel.isActiveForUserT "e" {} 200).2 ≠ [] ∧
    gateModel.isActiveForUser "e" {} 50 = true := by
  have h200 := expiration_gate_behavior gateModel "e" {} 200 gateFlag (by decide)
  have h50 := expiration_gate_behavior gateModel "e" {} 50 gateFlag (by decide)
  refine ⟨h200.2.1 _ false rfl (by decide) rfl, ?_, ?_⟩
  · exact h200.1.mpr ⟨rfl, 100, rfl, by decide⟩
  · rw [h50.2.2.2.2 (by decide)]
    decide

/-! ### Helper lemmas: falsity of the evaluator's guards -/

theorem userGuard_false (flag : FeatureFlag) (user : Option String)
    (husr : ∀ us u, flag.users = some us → user = some u → u ∉ us) :
    (truthyStr user && userMatch flag.users user) = false := by
  cases hcu : user with
  | none => simp [truthyStr]
  | some u =>
    cases hfu : flag.users with
    | none => simp [userMatch]
    | some us =>
      have hnm : u ∉ us := husr us u hfu hcu
      simp [userMatch, hnm]

theorem groupGuard_false (flag : FeatureFlag) (groups : Option (List String))
    (hgrp : ∀ gs, groups = some gs → ∀ g ∈ flag.groups.getD [], g ∉ gs) :
    (groups.isSome &&
      isActiveForGroups (groups.getD []) (flag.groups.getD [])) = false := by
  cases hcg : groups with
  | none => rfl
  | some gs =>
    have hany : (flag.groups.getD []).any (fun g => gs.contains g) = false := by
      rw [List.any_eq_false]
      intro g hgm
      simpa using hgrp gs hcg g hgm
    simp only [Option.isSome_some, Bool.true_and, Option.getD_some]
    unfold isActiveForGroups
    split
    · rfl
    · exact hany

theorem roleGuard_false (flag : FeatureFlag) (roles : Option (List String))
    (hrole : ∀ fr cr, flag.roles = some fr → roles = some cr → ∀ r ∈ cr, r ∉ fr) :
    roleMatch flag.roles roles = false := by
  cases hfr : flag.roles with
  | none => cases roles <;> rfl
  | some fr =>
    cases hcr : roles with
    | none => rfl
    | some cr =>
      unfold roleMatch
      rw [List.any_eq_false]
      intro r hrm
      simpa using hrole fr cr hfr hcr r hrm

/-- C2: with the everyone override absent, the user not in the allow list,
and neither the group nor the role rule matching: a set non-empty user and
a positive percent give `(hash(user) mod 100) < percent` with hash =
MurmurHash3 (x86, 32-bit, seed 0) and a possibly fractional percent; every
other remaining case gives `false`. -/
theorem percent_rollout_rule (flag : FeatureFlag) (ctx : EvalContext)
    (hev : flag.everyone = none)
    (husr : ∀ us u, flag.users = some us → ctx.user = some u → u ∉ us)
    (hgrp : ∀ gs, ctx.groups = some gs → ∀ g ∈ flag.groups.getD [], g ∉ gs)
    (hrole : ∀ fr cr, flag.roles = some fr → ctx.roles = some cr → ∀ r ∈ cr, r ∉ fr) :
    (∀ u p, ctx.user = some u → u ≠ "" → flag.percent = some p → 0 < p →
      evaluateFlagForUser flag ctx = decide (((hashUserId u % 100 : Nat) : ℚ) < p)) ∧
    ((ctx.user = none ∨ ctx.user = some "" ∨ flag.percent = none ∨
        (∃ p, flag.percent = some p ∧ p ≤ 0)) →
      evaluateFlagForUser flag ctx = false) := by
  have hub := userGuard_false flag ctx.user husr
  have hgb := groupGuard_false flag ctx.groups hgrp
  have hrb := roleGuard_false flag ctx.roles hrole
  constructor
  · intro u p hcu hune hp hpos
    simp only [evaluateFlagForUser, hev, hub, hgb, hrb, Bool.false_eq_true, if_false]
    rw [hcu, hp]
    simp [truthyStr, percentPositive, hune, hpos, hashUserId]
  · intro hcase
    simp only [evaluateFlagForUser, hev, hub, hgb, hrb, Bool.false_eq_true, if_false]
    rcases hcase with h | h | h | ⟨p, hp, hple⟩
    · simp [h, truthyStr]
    · simp [h, truthyStr]
    · simp [h, percentPositive]
    · simp [hp, percentPositive, not_lt.mpr hple]

/-- C2 witness: a pure percent flag at user `"a"`; and the same flag with
no user yields `false`. -/
theorem percent_rollout_rule_witness :
    evaluateFlagForUser { name := "p", percent := some 50 } { user := some "a" }
      = decide (((hashUserId "a" % 100 : Nat) : ℚ) < 50) ∧
    evaluateFlagForUser { name := "p", percent := some 50 } {} = false := by
  have h1 := percent_rollout_rule { name := "p", percent := some 50 } { user := some "a" }
    rfl (by simp) (by simp) (by simp)
  have h2 := percent_rollout_rule { name := "p", percent := some 50 } {}
    rfl (by simp) (by simp) (by simp)
  exact ⟨h1.1 "a" 50 rfl (by decide) rfl (by norm_num), h2.2 (Or.inl rfl)⟩

/-- C10: an empty-string user id is treated as no user at all: evaluation
with `ctx.user = ""` coincides with evaluation with no user, and in
particular (everyone unset, no group/role match) the result is `false`
no matter what `flag.users` contains or how large `flag.percent` is. -/
theorem empty_user_treated_as_no_user (flag : FeatureFlag)
    (roles groups : Option (List String)) :
    (evaluateFlagForUser flag { user := some "", roles := roles, groups := groups }
      = evaluateFlagForUser flag { user := none, roles := roles, groups := groups }) ∧
    (flag.everyone = none →
      (∀ gs, groups = some gs → ∀ g ∈ flag.groups.getD [], g ∉ gs) →
      (∀ fr cr, flag.roles = some fr → roles = some cr → ∀ r ∈ cr, r ∉ fr) →
      evaluateFlagForUser flag { user := some "", roles := roles, groups := groups } = false) := by
  have htr : truthyStr (some "") = false := by decide
  constructor
  · cases hev : flag.everyone with
    | some b => simp [evaluateFlagForUser, hev]
    | none => simp [evaluateFlagForUser, hev, htr, truthyStr]
  · intro hev hgrp hrole
    have hgb := groupGuard_false flag groups hgrp
    have hrb := roleGuard_false flag roles hrole
    simp [evaluateFlagForUser, hev, htr, hgb, hrb]

/-- C10 witness: a flag allow-listing the empty string with a full-on
percent still evaluates to `false` for the empty-string user. -/
theorem empty_user_treated_as_no_user_witness :
    evaluateFlagForUser { name := "u", users := some [""], percent := some 99 }
      { user := some "" } = false := by
  have h := empty_user_treated_as_no_user
    { name := "u", users := some [""], percent := some 99 } none none
  exact h.2 rfl (by simp) (by simp)

/-- C5: `areActiveForUser` with names omitted evaluates every flag in the
store (store order); with names given it issues exactly one batch fetch,
maps not-found names to `false`, applies the same
expiration-then-rules block as `isActiveForUser` per found flag, and lists
its entries in requested order. -/
theorem are_active_batch_semantics (m : FeatureFlagModel) (ctx : EvalContext)
    (now : Int) :
    (∀ ns, (m.areActiveForUserT (some ns) ctx now).2 = [StoreOp.fetchManyByName ns]) ∧
    (m.areActiveForUserT none ctx now).2 = [StoreOp.fetchAll] ∧
    (∀ ns, ns.Nodup →
      m.areActiveForUser (some ns) ctx now
        = ns.map (fun n => (n, areActiveValue m (m.store.getManyByName ns) ctx now n))) ∧
    ((m.store.list.map (fun f => f.name)).Nodup →
      m.areActiveForUser none ctx now
        = (m.store.list.map (fun f => f.name)).map
            (fun n => (n, areActiveValue m m.store.list ctx now n))) ∧
    (∀ flags n, (∀ f ∈ flags, f.name ≠ n) → areActiveValue m flags ctx now n = false) ∧
    (∀ flags n flag, assocGet (flagMapOf flags) n = some flag →
      areActiveValue m flags ctx now n = (evalFlagWithExpiration m flag ctx now).1) ∧
    (∀ name flag, m.store.getByName name = some flag →
      m.isActiveForUser name ctx now = (evalFlagWithExpiration m flag ctx now).1) := by
  refine ⟨?_, ?_, ?_, ?_, ?_, ?_, ?_⟩
  · intro ns; rw [areActiveForUserT_some]
  · rw [areActiveForUserT_none]
  · intro ns hnd
    rw [areActiveForUser_some_eq,
      foldl_assocSet_of_nodup _ ns [] hnd (by intro x _ p hp; cases hp)]
    simp
  · intro hnd
    rw [areActiveForUser_none_eq,
      foldl_assocSet_of_nodup _ _ [] hnd (by intro x _ p hp; cases hp)]
    simp
  · intro flags n habsent
    unfold areActiveValue
    rw [assocGet_flagMapOf_of_not_found _ _ habsent]
  · intro flags n flag hfound
    unfold areActiveValue
    rw [hfound]
  · intro name flag hget
    unfold FeatureFlagModel.isActiveForUser FeatureFlagModel.isActiveForUserT
    rw [hget]

/-- C5 witness: a two-name request on a concrete store — one found, one
not — in requested order, with one batch fetch. -/
theorem are_active_batch_semantics_witness :
    demoModel.areActiveForUser (some ["f", "zzz"]) {} 0 = [("f", true), ("zzz", false)] ∧
    (demoModel.areActiveForUserT (some ["f", "zzz"]) {} 0).2
      = [StoreOp.fetchManyByName ["f", "zzz"]] := by
  have h := are_active_batch_semantics demoModel {} 0
  refine ⟨?_, h.1 ["f", "zzz"]⟩
  rw [h.2.2.1 ["f", "zzz"] (by decide)]
  decide

/-! ### Helper lemmas: the cached facade -/

theorem facade_hit (fc : FeatureFlagCache) (name : String) (ctx : EvalContext)
    (now : Int) (b : Bool) (c1 : InMemoryCache Bool) (key : String)
    (hkey : key = generateCacheKey name ctx.user ctx.roles ctx.groups)
    (h : fc.cache.get key now = (some b, c1)) :
    fc.isActiveForUser name ctx now = (b, { fc with cache := c1 }, 0) := by
  subst hkey
  simp only [FeatureFlagCache.isActiveForUser, h]

theorem facade_miss (fc : FeatureFlagCache) (name : String) (ctx : EvalContext)
    (now : Int) (c1 : InMemoryCache Bool) (key : String) (mr : Bool)
    (hkey : key = generateCacheKey name ctx.user ctx.roles ctx.groups)
    (hmr : mr = fc.model.isActiveForUser name ctx now)
    (h : fc.cache.get key now = (none, c1)) :
    fc.isActiveForUser name ctx now
      = (mr, { fc with cache := c1.set key mr (some fc.ttl) now }, 1) := by
  subst hkey hmr
  simp only [FeatureFlagCache.isActiveForUser, h]

/-- C6: the cached facade returns a cached boolean without touching the
model; on a miss it delegates to the model exactly once, stores the result
under the derived key with the configured ttl, and returns it — so two
identical calls within the ttl window reach the model exactly once; the
constructor's default ttl is 300 seconds. -/
theorem cached_facade_behavior (fc : FeatureFlagCache) (name : String)
    (ctx : EvalContext) (now : Int) (key : String) (mr : Bool)
    (hkey : key = generateCacheKey name ctx.user ctx.roles ctx.groups)
    (hmr : mr = fc.model.isActiveForUser name ctx now) :
    (∀ b c1, fc.cache.get key now = (some b, c1) →
      fc.isActiveForUser name ctx now = (b, { fc with cache := c1 }, 0)) ∧
    (∀ c1, fc.cache.get key now = (none, c1) →
      fc.isActiveForUser name ctx now
        = (mr, { fc with cache := c1.set key mr (some fc.ttl) now }, 1) ∧
      assocGet (c1.set key mr (some fc.ttl) now).cache key
        = some ⟨mr, some (now + fc.ttl * 1000)⟩) ∧
    (∀ t2 c1, fc.cache.get key now = (none, c1) →
      t2 < now + fc.ttl * 1000 →
      (fc.isActiveForUser name ctx now).2.2
        + (((fc.isActiveForUser name ctx now).2.1).isActiveForUser name ctx t2).2.2
        = 1 ∧
      (((fc.isActiveForUser name ctx now).2.1).isActiveForUser name ctx t2).1
        = (fc.isActiveForUser name ctx now).1) ∧
    (∀ mdl c, (FeatureFlagCache.make mdl c none).ttl = 300) := by
  refine ⟨?_, ?_, ?_, ?_⟩
  · intro b c1 h
    exact facade_hit fc name ctx now b c1 key hkey h
  · intro c1 h
    refine ⟨facade_miss fc name ctx now c1 key mr hkey hmr h, ?_⟩
    simp [InMemoryCache.set, assocGet_assocSet]
  · intro t2 c1 hm ht
    have hmiss := facade_miss fc name ctx now c1 key mr hkey hmr hm
    rw [hmiss]
    dsimp only
    have hget2 : ({ fc with cache := c1.set key mr (some fc.ttl) now } :
        FeatureFlagCache).cache.get key t2
        = (some mr, (c1.set key mr (some fc.ttl) now)) := by
      dsimp only
      unfold InMemoryCache.set InMemoryCache.get
      rw [assocGet_assocSet]
      simp [not_le.mpr ht]
    have hhit := facade_hit { fc with cache := c1.set key mr (some fc.ttl) now }
      name ctx t2 mr (c1.set key mr (some fc.ttl) now) key hkey hget2
    rw [hhit]
    exact ⟨rfl, rfl⟩
  · intro mdl c
    rfl

/-- C6 witness: two identical calls on a facade over a concrete store,
starting from an empty cache, hit the model exactly once and agree. -/
theorem cached_facade_behavior_witness :
    ((FeatureFlagCache.make demoModel ⟨[]⟩ none).isActiveForUser "f" {} 1000).2.2
      + ((((FeatureFlagCache.make demoModel ⟨[]⟩ none).isActiveForUser "f" {} 1000).2.1).isActiveForUser
          "f" {} 2000).2.2 = 1 ∧
    ((((FeatureFlagCache.make demoModel ⟨[]⟩ none).isActiveForUser "f" {} 1000).2.1).isActiveForUser
        "f" {} 2000).1
      = ((FeatureFlagCache.make demoModel ⟨[]⟩ none).isActiveForUser "f" {} 1000).1 ∧
    (FeatureFlagCache.make demoModel ⟨[]⟩ none).ttl = 300 := by
  have h := cached_facade_behavior (FeatureFlagCache.make demoModel ⟨[]⟩ none)
    "f" {} 1000 (generateCacheKey "f" none none none)
    (demoModel.isActiveForUser "f" {} 1000) rfl rfl
  have hc := h.2.2.1 2000 ⟨[]⟩ rfl
    (by norm_num [FeatureFlagCache.make, DEFAULT_TTL])
  exact ⟨hc.1, hc.2, h.2.2.2 demoModel ⟨[]⟩⟩

/-- C7: `InMemoryCache.get` returns the stored value for an unexpired or
never-expiring entry; an expired entry is lazily deleted (size shrinks by
one) with `undefined` returned; `set` with a ttl stamps expiry
`now + ttl` seconds, without a ttl never expires, and always overwrites
the prior entry for the key. -/
theorem inmemory_cache_get_set {α : Type} (c : InMemoryCache α) (key : String)
    (now : Int) :
    (∀ e, assocGet c.cache key = some e →
      (e.expiresAt = none ∨ ∃ exp, e.expiresAt = some exp ∧ now < exp) →
      c.get key now = (some e.value, c)) ∧
    (∀ e exp, assocGet c.cache key = some e → e.expiresAt = some exp →
      exp ≤ now →
      c.get key now = (none, c.delete key) ∧ (c.get key now).2.size + 1 = c.size) ∧
    (∀ (v : α) ttl, assocGet ((c.set key v ttl now)).cache key
      = some ⟨v, ttl.map (fun t => now + t * 1000)⟩) ∧
    (∀ (v : α) ttl t, t < now + ttl * 1000 →
      ((c.set key v (some ttl) now).get key t).1 = some v) ∧
    (∀ (v : α) ttl t, now + ttl * 1000 ≤ t →
      ((c.set key v (some ttl) now).get key t).1 = none) ∧
    (∀ (v : α) t, ((c.set key v none now).get key t).1 = some v) := by
  refine ⟨?_, ?_, ?_, ?_, ?_, ?_⟩
  · intro e he hfresh
    unfold InMemoryCache.get
    rcases hfresh with h | ⟨exp, hexp, hlt⟩
    · simp only [he, h]
    · simp only [he, hexp]
      simp [not_le.mpr hlt]
  · intro e exp he hexp hle
    have hg : c.get key now = (none, c.delete key) := by
      unfold InMemoryCache.get InMemoryCache.delete
      simp only [he, hexp]
      simp [hle]
    refine ⟨hg, ?_⟩
    rw [hg]
    unfold InMemoryCache.delete InMemoryCache.size
    exact length_assocDelete c.cache key he
  · intro v ttl
    unfold InMemoryCache.set
    rw [assocGet_assocSet]
    simp
  · intro v ttl t ht
    unfold InMemoryCache.set InMemoryCache.get
    rw [assocGet_assocSet]
    simp [not_le.mpr ht]
  · intro v ttl t ht
    unfold InMemoryCache.set InMemoryCache.get
    rw [assocGet_assocSet]
    simp [ht]
  · intro v t
    unfold InMemoryCache.set InMemoryCache.get
    rw [assocGet_assocSet]
    simp

/-- C7 witness: a two-entry cache; the fresh entry is served, the expired
one is evicted on `get` and the size drops from 2 to 1. -/
theorem inmemory_cache_get_set_witness :
    (InMemoryCache.mk [("a", ⟨true, some 500⟩), ("b", ⟨false, none⟩)]).get "b" 1000
      = (some false, InMemoryCache.mk [("a", ⟨true, some 500⟩), ("b", ⟨false, none⟩)]) ∧
    (InMemoryCache.mk [("a", ⟨true, some 500⟩), ("b", ⟨false, none⟩)]).get "a" 1000
      = (none, (InMemoryCache.mk [("a", ⟨true, some 500⟩), ("b", ⟨false, none⟩)]).delete "a") ∧
    ((InMemoryCache.mk [("a", ⟨true, some 500⟩), ("b", ⟨false, none⟩)]).get "a" 1000).2.size + 1
      = (InMemoryCache.mk [("a", (⟨true, some 500⟩ : CacheEntry Bool)),
          ("b", ⟨false, none⟩)]).size ∧
    (((InMemoryCache.mk [] : InMemoryCache Bool).set "k" true (some 300) 1000).get "k" 200000).1
      = some true := by
  have h := inmemory_cache_get_set
    (InMemoryCache.mk [("a", ⟨true, some 500⟩), ("b", ⟨false, none⟩)]) "b" 1000
  have h2 := inmemory_cache_get_set
    (InMemoryCache.mk [("a", ⟨true, some 500⟩), ("b", ⟨false, none⟩)]) "a" 1000
  have h3 := inmemory_cache_get_set (InMemoryCache.mk [] : InMemoryCache Bool) "k" 1000
  have hexp := h2.2.1 ⟨true, some 500⟩ 500 (by decide) rfl (by decide)
  exact ⟨h.1 ⟨false, none⟩ (by decide) (Or.inl rfl),
    hexp.1, hexp.2, h3.2.2.2.1 true 300 200000 (by decide)⟩

/-! ### Helper lemmas: string sorting -/

theorem sortStrings_sorted (l : List String) :
    List.Sorted (· ≤ ·) (sortStrings l) := by
  have h := @List.sorted_mergeSort String (fun a b => a ≤ b)
    (by intro a b c h1 h2; simp only [decide_eq_true_eq] at *; exact le_trans h1 h2)
    (by intro a b; simpa using le_total a b) l
  unfold sortStrings
  exact List.Pairwise.imp (by intro a b hb; simpa using hb) h

theorem sortStrings_perm (l : List String) : (sortStrings l).Perm l :=
  List.mergeSort_perm l _

theorem sortStrings_perm_eq {l1 l2 : List String} (h : l1.Perm l2) :
    sortStrings l1 = sortStrings l2 :=
  List.eq_of_perm_of_sorted
    (((sortStrings_perm l1).trans h).trans (sortStrings_perm l2).symm)
    (sortStrings_sorted l1) (sortStrings_sorted l2)

/-- C8: `generateCacheKey` is invariant under reordering of the roles and
groups lists, and an absent user / roles / groups yields the same key as
an explicitly empty string / empty list. -/
theorem cache_key_canonicalization (name : String) (user : Option String)
    (r1 r2 g1 g2 : List String) (hr : r1.Perm r2) (hg : g1.Perm g2) :
    (generateCacheKey name user (some r1) (some g1)
      = generateCacheKey name user (some r2) (some g2)) ∧
    (generateCacheKey name none none none
      = generateCacheKey name (some "") (some []) (some [])) := by
  constructor
  · unfold generateCacheKey generateCacheKeyString
    simp only [Option.getD_some]
    rw [sortStrings_perm_eq hr, sortStrings_perm_eq hg]
  · rfl

/-- C8 witness: the spec's instance of order independence, plus the
absent-versus-empty collision. -/
theorem cache_key_canonicalization_witness :
    generateCacheKey "f" (some "u") (some ["a", "b"]) (some ["x", "y"])
      = generateCacheKey "f" (some "u") (some ["b", "a"]) (some ["y", "x"]) ∧
    generateCacheKey "f" none none none
      = generateCacheKey "f" (some "") (some []) (some []) := by
  have h := cache_key_canonicalization "f" (some "u") ["a", "b"] ["b", "a"]
    ["x", "y"] ["y", "x"] (by decide) (by decide)
  exact ⟨h.1, h.2⟩

/-! ### Helper lemmas: splitting the canonical key string -/

theorem mem_append_sep (sep : Char) (a b : List Char) : sep ∈ a ++ sep :: b :=
  List.mem_append_right a (List.mem_cons_self sep b)

theorem append_sep_inj (sep : Char) :
    ∀ (a c b d : List Char), sep ∉ a → sep ∉ c →
      a ++ sep :: b = c ++ sep :: d → a = c ∧ b = d := by
  intro a
  induction a with
  | nil =>
    intro c b d _ hc h
    cases c with
    | nil => simpa using h
    | cons y c' =>
      simp only [List.nil_append, List.cons_append, List.cons.injEq] at h
      exact absurd (by rw [h.1]; exact List.mem_cons_self y c') hc
  | cons x a' ih =>
    intro c b d ha hc h
    cases c with
    | nil =>
      simp only [List.cons_append, List.nil_append, List.cons.injEq] at h
      exact absurd (by rw [h.1]; exact List.mem_cons_self sep a') ha
    | cons y c' =>
      simp only [List.cons_append, List.cons.injEq] at h
      obtain ⟨hxy, hrest⟩ := h
      have ha' : sep ∉ a' := fun hm => ha (List.mem_cons_of_mem x hm)
      have hc' : sep ∉ c' := fun hm => hc (List.mem_cons_of_mem y hm)
      obtain ⟨he, hbd⟩ := ih c' b d ha' hc' hrest
      exact ⟨by rw [hxy, he], hbd⟩

theorem mem_joinChars (sep c : Char) :
    ∀ l : List (List Char), c ∈ joinChars sep l → c = sep ∨ ∃ s ∈ l, c ∈ s := by
  intro l
  induction l with
  | nil => intro h; simp [joinChars] at h
  | cons s r ih =>
    cases r with
    | nil =>
      intro h
      exact Or.inr ⟨s, List.mem_cons_self s [], h⟩
    | cons t r2 =>
      intro h
      simp only [joinChars] at h
      rcases List.mem_append.mp h with h | h
      · exact Or.inr ⟨s, List.mem_cons_self s (t :: r2), h⟩
      · rcases List.mem_cons.mp h with h | h
        · exact Or.inl h
        · rcases ih h with h | ⟨x, hx, hcx⟩
          · exact Or.inl h
          · exact Or.inr ⟨x, List.mem_cons_of_mem s hx, hcx⟩

theorem joinChars_inj (sep : Char) :
    ∀ l1 l2 : List (List Char),
      (∀ s ∈ l1, s ≠ [] ∧ sep ∉ s) → (∀ s ∈ l2, s ≠ [] ∧ sep ∉ s) →
      joinChars sep l1 = joinChars sep l2 → l1 = l2 := by
  intro l1
  induction l1 with
  | nil =>
    intro l2 _ h2 h
    cases l2 with
    | nil => rfl
    | cons t r2 =>
      cases r2 with
      | nil => exact absurd h.symm (h2 t (List.mem_cons_self t [])).1
      | cons t2 r3 =>
        rw [show joinChars sep [] = [] from rfl] at h
        simp only [joinChars] at h
        exact absurd h.symm (by simp)
  | cons s r1 ih =>
    intro l2 h1 h2 h
    cases r1 with
    | nil =>
      cases l2 with
      | nil => exact absurd h (h1 s (List.mem_cons_self s [])).1
      | cons t r2 =>
        cases r2 with
        | nil => rw [show joinChars sep [s] = s from rfl,
                     show joinChars sep [t] = t from rfl] at h
                 rw [h]
        | cons t2 r3 =>
          simp only [joinChars] at h
          have hsep : sep ∈ t ++ sep :: joinChars sep (t2 :: r3) :=
            mem_append_sep sep t _
          rw [← h] at hsep
          exact absurd hsep (h1 s (List.mem_cons_self s [])).2
    | cons s2 r1' =>
      cases l2 with
      | nil =>
        simp only [joinChars] at h
        exact absurd h (by simp)
      | cons t r2 =>
        cases r2 with
        | nil =>
          simp only [joinChars] at h
          have hsep : sep ∈ s ++ sep :: joinChars sep (s2 :: r1') :=
            mem_append_sep sep s _
          rw [h] at hsep
          exact absurd hsep (h2 t (List.mem_cons_self t [])).2
        | cons t2 r3 =>
          simp only [joinChars] at h
          obtain ⟨hst, hJ⟩ := append_sep_inj sep s t _ _
            (h1 s (List.mem_cons_self s (s2 :: r1'))).2
            (h2 t (List.mem_cons_self t (t2 :: r3))).2 h
          have hrec := ih (t2 :: r3)
            (fun x hx => h1 x (List.mem_cons_of_mem s hx))
            (fun x hx => h2 x (List.mem_cons_of_mem t hx)) hJ
          rw [hst, hrec]

theorem data_joinSep (sepS : String) (sep : Char) (hs : sepS.data = [sep]) :
    ∀ l : List String,
      (joinSep sepS l).data = joinChars sep (l.map String.data) := by
  intro l
  induction l with
  | nil => rfl
  | cons s rest ih =>
    cases rest with
    | nil => rfl
    | cons t r2 =>
      show (s ++ sepS ++ joinSep sepS (t :: r2)).data = _
      simp only [String.data_append, ih, hs, List.map_cons, joinChars,
        List.append_assoc, List.singleton_append]

theorem generateCacheKeyString_data (name : String) (user : Option String)
    (roles groups : Option (List String)) :
    (generateCacheKeyString name user roles groups).data
      = name.data ++ '|' :: ((user.getD "").data ++ '|' ::
          (joinChars ',' ((sortStrings (roles.getD [])).map String.data) ++ '|' ::
           joinChars ',' ((sortStrings (groups.getD [])).map String.data))) := by
  show (name ++ "|" ++ ((user.getD "") ++ "|" ++
      (joinSep "," (sortStrings (roles.getD [])) ++ "|" ++
       joinSep "," (sortStrings (groups.getD []))))).data = _
  simp only [String.data_append, data_joinSep "," ',' rfl,
    show ("|" : String).data = ['|'] from rfl,
    List.append_assoc, List.singleton_append]

theorem bar_not_in_join (l : List String)
    (h : ∀ s ∈ l, s.data ≠ [] ∧ ',' ∉ s.data ∧ '|' ∉ s.data) :
    '|' ∉ joinChars ',' ((sortStrings l).map String.data) := by
  intro hm
  rcases mem_joinChars ',' '|' _ hm with h1 | ⟨s, hs, hcs⟩
  · exact absurd h1 (by decide)
  · rcases List.mem_map.mp hs with ⟨x, hx, rfl⟩
    exact (h x ((sortStrings_perm l).mem_iff.mp hx)).2.2 hcs

theorem join_elems_ok (l : List String)
    (h : ∀ s ∈ l, s.data ≠ [] ∧ ',' ∉ s.data ∧ '|' ∉ s.data) :
    ∀ s ∈ (sortStrings l).map String.data, s ≠ [] ∧ ',' ∉ s := by
  intro s hs
  rcases List.mem_map.mp hs with ⟨x, hx, rfl⟩
  have hx' := h x ((sortStrings_perm l).mem_iff.mp hx)
  exact ⟨hx'.1, hx'.2.1⟩

/-- C9 counterexample: two requests that differ in flag name (and user)
but produce the same cache key — not through a hash collision, but because
the `"|"` delimiter occurs in the name, so the canonical pre-hash strings
already coincide (`"a|b|c||"` both times). -/
theorem cache_key_not_injective :
    generateCacheKey "a|b" (some "c") none none
      = generateCacheKey "a" (some "b|c") none none ∧
    ("a|b" : String) ≠ "a" :=
  ⟨rfl, by decide⟩

/-- C9 amended: restricted to delimiter-free inputs — the name and user
contain no `'|'`, and every role/group element is non-empty and contains
neither `','` nor `'|'` — the canonical pre-hash string of
`generateCacheKey` determines the canonicalized request (name, defaulted
user, sorted role list, sorted group list), so such requests produce
different keys up to collisions of the 32-bit hash. Without the
delimiter-freedom restriction this fails (see the counterexample). -/
theorem cache_key_string_injective
    (n1 n2 : String) (u1 u2 : Option String) (r1 r2 g1 g2 : Option (List String))
    (hn1 : '|' ∉ n1.data) (hn2 : '|' ∉ n2.data)
    (hu1 : '|' ∉ (u1.getD "").data) (hu2 : '|' ∉ (u2.getD "").data)
    (hr1 : ∀ s ∈ r1.getD [], s.data ≠ [] ∧ ',' ∉ s.data ∧ '|' ∉ s.data)
    (hr2 : ∀ s ∈ r2.getD [], s.data ≠ [] ∧ ',' ∉ s.data ∧ '|' ∉ s.data)
    (hg1 : ∀ s ∈ g1.getD [], s.data ≠ [] ∧ ',' ∉ s.data ∧ '|' ∉ s.data)
    (hg2 : ∀ s ∈ g2.getD [], s.data ≠ [] ∧ ',' ∉ s.data ∧ '|' ∉ s.data)
    (heq : generateCacheKeyString n1 u1 r1 g1 = generateCacheKeyString n2 u2 r2 g2) :
    n1 = n2 ∧ u1.getD "" = u2.getD "" ∧
    sortStrings (r1.getD []) = sortStrings (r2.getD []) ∧
    sortStrings (g1.getD []) = sortStrings (g2.getD []) := by
  have hd := congrArg String.data heq
  rw [generateCacheKeyString_data, generateCacheKeyString_data] at hd
  obtain ⟨hname, hd2⟩ := append_sep_inj '|' _ _ _ _ hn1 hn2 hd
  obtain ⟨huser, hd3⟩ := append_sep_inj '|' _ _ _ _ hu1 hu2 hd2
  obtain ⟨hroles, hgroups⟩ := append_sep_inj '|' _ _ _ _
    (bar_not_in_join _ hr1) (bar_not_in_join _ hr2) hd3
  refine ⟨String.ext hname, String.ext huser, ?_, ?_⟩
  · exact List.map_injective_iff.mpr (fun a b hab => String.ext hab)
      (joinChars_inj ',' _ _ (join_elems_ok _ hr1) (join_elems_ok _ hr2) hroles)
  · exact List.map_injective_iff.mpr (fun a b hab => String.ext hab)
      (joinChars_inj ',' _ _ (join_elems_ok _ hg1) (join_elems_ok _ hg2) hgroups)

/-- C9 amended witness: a concrete delimiter-free pair with equal canonical
strings; the theorem recovers equality of the canonical components
(absent and defaulted fields included). -/
theorem cache_key_string_injective_witness :
    ("f" : String) = "f" ∧
    (none : Option String).getD "" = (some "").getD "" ∧
    sortStrings ((some ["a"] : Option (List String)).getD [])
      = sortStrings ((some ["a"] : Option (List String)).getD []) ∧
    sortStrings ((none : Option (List String)).getD [])
      = sortStrings ((some [] : Option (List String)).getD []) :=
  cache_key_string_injective "f" "f" none (some "") (some ["a"]) (some ["a"])
    none (some []) (by decide) (by decide) (by decide) (by decide)
    (by decide) (by decide) (by decide) (by decide) rfl
